import Mathlib

/-!
Verification development for the madara-bench benchmark scheduling and
result-aggregation engine.

The definitions below are shallow embeddings of the Python source:

* `app/__init__.py` — `deduplicate_merge_rpc`, `apply_key`, `apply_sort`,
  `apply_merge_rpc` (the Merger);
* `app/benchmarks/__init__.py` — `benchmark_rpc` (scheduling and latency
  aggregation), `benchmark_system` (system-metric averaging), `with_sleep`;
* `app/benchmarks/generators.py` — the backward-scanning input generators;
* `app/database/__init__.py` — `db_bench_method` (error handling and
  persistence of one benchmark cycle).

Python `int` is embedded as `Int`, Python `//` on ints as `Int.fdiv`
(floor division), Python `float` arithmetic on exactly representable
sample values as `ℚ`, and Python's stable `sorted` as `List.insertionSort`
(which is stable: an element is inserted before the strictly later ones
with an equal key, preserving the original relative order of equal keys,
exactly like Timsort).
-/

/-- RPC benchmark summary record, one per (node, method, block).  Fields as
constructed by `BlockDB.node_response_rpc` in `app/database/models.py` from a
`BenchmarkRpcDB` row: the node and method enumerations are embedded as their
scalar indices. -/
structure NodeResponseBenchRpc where
  node : Nat
  method : Nat
  block_number : Int
  elapsed_avg : Int
  elapsed_low : Int
  elapsed_high : Int
deriving DecidableEq, Repr

/-- The in-place update `acc[-1].elapsed_avg = ...; acc[-1].elapsed_low = ...;
acc[-1].elapsed_high = ...` performed by `deduplicate_merge_rpc` on a
block-number collision (`app/__init__.py` lines 175–177). -/
def dedup_combine (last resp : NodeResponseBenchRpc) : NodeResponseBenchRpc :=
  { last with
    elapsed_avg := (last.elapsed_avg + resp.elapsed_avg).fdiv 2
    elapsed_low := min last.elapsed_low resp.elapsed_low
    elapsed_high := max last.elapsed_high resp.elapsed_high }

/-- `deduplicate_merge_rpc(acc, resp)` from `app/__init__.py` lines 170–180:
if `acc` is non-empty and its last entry has the same block number as `resp`,
fold `resp`'s latency fields into that last entry; otherwise append `resp`. -/
def deduplicate_merge_rpc (acc : List NodeResponseBenchRpc)
    (resp : NodeResponseBenchRpc) : List NodeResponseBenchRpc :=
  match acc.getLast? with
  | some last =>
    if last.block_number = resp.block_number then
      acc.dropLast ++ [dedup_combine last resp]
    else
      acc ++ [resp]
  | none => acc ++ [resp]

/-- `apply_key = lambda x: x.block_number` (`app/__init__.py` line 194). -/
def apply_key (x : NodeResponseBenchRpc) : Int := x.block_number

/-- The comparison used by `sorted(l, key=apply_key)`: order by block number. -/
def le_key (a b : NodeResponseBenchRpc) : Prop := apply_key a ≤ apply_key b

/-- Strict version of `le_key`; `Pairwise lt_key` states that a list is sorted
by block number with no two entries sharing a block number. -/
def lt_key (a b : NodeResponseBenchRpc) : Prop := apply_key a < apply_key b

instance : DecidableRel le_key := fun a b => Int.decLe _ _

instance : DecidableRel lt_key := fun a b => Int.decLt _ _

instance : IsTotal NodeResponseBenchRpc le_key := ⟨fun a b => Int.le_total _ _⟩

instance : IsTrans NodeResponseBenchRpc le_key := ⟨fun _ _ _ => Int.le_trans⟩

instance : IsAntisymm NodeResponseBenchRpc lt_key :=
  ⟨fun _ _ h h2 => absurd (lt_trans h h2) (lt_irrefl _)⟩

/-- `apply_sort = lambda l: sorted(l, key=apply_key)` (`app/__init__.py`
line 195); Python's `sorted` is stable, embedded as stable insertion sort. -/
def apply_sort (l : List NodeResponseBenchRpc) : List NodeResponseBenchRpc :=
  l.insertionSort le_key

/-- `apply_merge_rpc = lambda l: functools.reduce(deduplicate_merge_rpc, l, [])`
(`app/__init__.py` line 196). -/
def apply_merge_rpc (l : List NodeResponseBenchRpc) : List NodeResponseBenchRpc :=
  l.foldl deduplicate_merge_rpc []

/-- The Merger: the composition `apply_merge_rpc(apply_sort(resps))` used by
the read and chart endpoints (`app/__init__.py` lines 240 and 309). -/
def bench_merge (l : List NodeResponseBenchRpc) : List NodeResponseBenchRpc :=
  apply_merge_rpc (apply_sort l)

/-- Recursion equivalent to folding `deduplicate_merge_rpc` over a list while
carrying the current tail entry; used to reason about `apply_merge_rpc`. -/
def dedup_run (t : NodeResponseBenchRpc) :
    List NodeResponseBenchRpc → List NodeResponseBenchRpc
  | [] => [t]
  | x :: xs =>
    if t.block_number = x.block_number then dedup_run (dedup_combine t x) xs
    else t :: dedup_run x xs

/-- Per-node average latency computed by `benchmark_rpc`
(`app/benchmarks/__init__.py` line 227): `sum(all) // len(all)` over the
elapsed times (nanoseconds) of one node's samples. -/
def benchmark_rpc_elapsed_avg (elapsed : List Int) : Int :=
  elapsed.sum.fdiv elapsed.length

/-- Modelled from the spec: the summary fields `elapsed_low = min(elapsed)` and
`elapsed_high = max(elapsed)` (spec section 4.3).  The class
`models.models.NodeResponseBenchRpc` that carries these fields for
`db_bench_method` is not part of the source tree, so the minimum is taken from
the specification.  Python's `min` of a non-empty list. -/
def elapsed_low_of (elapsed : List Int) : Int :=
  match elapsed with
  | [] => 0
  | x :: xs => xs.foldl min x

/-- Modelled from the spec: `elapsed_high = max(elapsed)` (spec section 4.3);
see `elapsed_low_of`.  Python's `max` of a non-empty list. -/
def elapsed_high_of (elapsed : List Int) : Int :=
  match elapsed with
  | [] => 0
  | x :: xs => xs.foldl max x

/-- `TO_MILLIS: float = 0.001` (`app/benchmarks/__init__.py` line 159),
embedded exactly as the rational 1/1000. -/
def TO_MILLIS : ℚ := 1 / 1000

/-- One scheduled transport call, as produced by
`with_sleep(tool.runner(node, url, **input), i * sleep)`: the awaited runner
call together with the sleep duration (in seconds) attached before it fires. -/
structure ScheduledCall (ν υ ι : Type) where
  node : ν
  url : υ
  input : ι
  delay : ℚ
deriving DecidableEq, Repr

/-- The `futures_bench` comprehension of `benchmark_rpc`
(`app/benchmarks/__init__.py` lines 197–203): for every `(node, url)` target
and every `(i, input)` of `enumerate(inputs)`, one call delayed by
`i * sleep` where `sleep = interval * TO_MILLIS`. -/
def futures_bench {ν υ ι : Type} (urls : List (ν × υ)) (interval : ℚ)
    (inputs : List ι) : List (List (ScheduledCall ν υ ι)) :=
  urls.map fun nu =>
    inputs.enum.map fun p =>
      { node := nu.1, url := nu.2, input := p.2
        delay := p.1 * (interval * TO_MILLIS) }

/-- A Python numeric sample value: an `int` (memory bytes, storage bytes) or a
`float` (normalized CPU percent); floats of the samples are embedded as
rationals. -/
inductive PyNum where
  | int : Int → PyNum
  | float : ℚ → PyNum
deriving DecidableEq, Repr

/-- The rational magnitude of a `PyNum`. -/
def PyNum.toRat : PyNum → ℚ
  | .int i => (i : ℚ)
  | .float q => q

/-- Python addition on numbers: `int + int` is an `int`, any `float` operand
makes the result a `float`. -/
def pyAdd : PyNum → PyNum → PyNum
  | .int a, .int b => .int (a + b)
  | a, b => .float (a.toRat + b.toRat)

/-- Python `sum(all)` over a list of numbers (initial value the int `0`). -/
def pySum (l : List PyNum) : PyNum := l.foldl pyAdd (.int 0)

/-- Python true division `x / n` of a number by a positive int: always a
`float`. -/
def pyTrueDiv (a : PyNum) (n : Nat) : PyNum := .float (a.toRat / n)

/-- Python floor division `x // n` of a number by a positive int: floor, an
`int` for an `int` operand and a `float` for a `float` operand. -/
def pyFloorDiv (a : PyNum) (n : Nat) : PyNum :=
  match a with
  | .int i => .int (i.fdiv n)
  | .float q => .float ((⌊q / n⌋ : Int) : ℚ)

/-- The test `value[0][0] is int` of `benchmark_system`
(`app/benchmarks/__init__.py` line 322).  `is` is Python's object-identity
test and `int` here denotes the type object, so the expression compares a
sample value with the type object `int`; no `int` or `float` value is
identical to the type object, hence the test is `False` for every sample
value. -/
def py_value_is_the_type_int (v : PyNum) : Bool := false

/-- The head sample `value[0][0]` (defaulting where Python would raise on an
empty list; `benchmark_system` always has at least one node and one sample). -/
def headSample (value : List (List PyNum)) : PyNum :=
  ((value.headD []).headD (.int 0))

/-- The `value_avg` computation of `benchmark_system`
(`app/benchmarks/__init__.py` lines 320–325): floor division when
`value[0][0] is int`, true division otherwise. -/
def benchmark_system_value_avg (value : List (List PyNum)) : List PyNum :=
  if py_value_is_the_type_int (headSample value) then
    value.map fun all => pyFloorDiv (pySum all) all.length
  else
    value.map fun all => pyTrueDiv (pySum all) all.length

/-- `GENERATE_RANGE: int = 2_000` (`app/benchmarks/generators.py` line 34). -/
def GENERATE_RANGE : Int := 2000

/-- The backward scan common to the input generators
(`app/benchmarks/generators.py`, e.g. lines 392–398): starting from
`block_number`, while the block fails the generator's predicate decrement it;
if the decremented number falls below `block_min` the scan fails
(`ErrorNoInputFound`, embedded as `none`), otherwise the first satisfying
block is returned. -/
def backwardScan (pred : Int → Bool) (block_min : Int) (block_number : Int) :
    Option Int :=
  if pred block_number then some block_number
  else if block_number - 1 < block_min then none
  else backwardScan pred block_min (block_number - 1)
termination_by (block_number - block_min).toNat
decreasing_by omega

/-- The block number yielded by `gen_starknet_getStorageAt`
(`app/benchmarks/generators.py` lines 386–406): scan backwards from the
randomly chosen `start` with floor `max(block_number - GENERATE_RANGE, 0)`;
the satisfying block itself is yielded. -/
def gen_starknet_getStorageAt_block (pred : Int → Bool)
    (common_height start : Int) : Option Int :=
  backwardScan pred (max (common_height - GENERATE_RANGE) 0) start

/-- The block number yielded by `gen_starknet_estimateFee`
(`app/benchmarks/generators.py` lines 243–278): same backward scan with floor
`max(0, block_number - GENERATE_RANGE)`, but the generator yields
`block_number - 1`, the predecessor of the satisfying block. -/
def gen_starknet_estimateFee_block (pred : Int → Bool)
    (common_height start : Int) : Option Int :=
  (backwardScan pred (max 0 (common_height - GENERATE_RANGE)) start).map
    (fun b => b - 1)

/-- The error kinds that `db_bench_method` catches
(`app/database/__init__.py` lines 291–302) and that `benchmark_rpc` lets
propagate. -/
inductive BenchError where
  | errorNoInputFound
  | errorStarknetVersion
  | errorRpcCall (node method : Nat)
  | validationError
deriving DecidableEq, Repr

/-- `asyncio.gather` over already-determined outcomes: the collected list if
every awaitable succeeds, otherwise the raised error.  With at most one
failing awaitable this is exactly `asyncio.gather`'s behaviour (the single
exception propagates); the embedding resolves simultaneous failures in list
order. -/
def except_gather {ε α : Type} : List (Except ε α) → Except ε (List α)
  | [] => .ok []
  | .error e :: _ => .error e
  | .ok a :: rest => (except_gather rest).map (a :: ·)

/-- The timed-sample phase of `benchmark_rpc`
(`app/benchmarks/__init__.py` lines 197–227) with the transport abstracted:
`calls` gives, per target, the outcome (elapsed nanoseconds or raised error)
of each sample index; `results = [await asyncio.gather(*futures) for futures
in futures_bench]` then `elapsed_avg = [sum(all) // len(all) for all in
elapsed]`. -/
def benchmark_rpc_run (calls : List (Nat → Except BenchError Int))
    (samples : Nat) : Except BenchError (List Int) :=
  (except_gather (calls.map fun call =>
      except_gather ((List.range samples).map call))).map
    fun results => results.map benchmark_rpc_elapsed_avg

/-- The persistence decision of `db_bench_method`
(`app/database/__init__.py` lines 284–343): every caught error kind makes the
function log and return without touching the database; on success the first
node's summary (`bench.nodes[0]`) is added and committed.  The database is
embedded as the list of persisted per-node average rows. -/
def db_bench_method (db : List Int)
    (bench : Except BenchError (List Int)) : List Int :=
  match bench with
  | .error _ => db
  | .ok summaries => db ++ summaries.take 1

/-! ## Helper lemmas about the Merger -/

theorem dedup_combine_block (t x : NodeResponseBenchRpc) :
    (dedup_combine t x).block_number = t.block_number := rfl

theorem deduplicate_merge_rpc_nil (r : NodeResponseBenchRpc) :
    deduplicate_merge_rpc [] r = [r] := rfl

theorem deduplicate_merge_rpc_concat (acc : List NodeResponseBenchRpc)
    (t r : NodeResponseBenchRpc) :
    deduplicate_merge_rpc (acc ++ [t]) r =
      if t.block_number = r.block_number then acc ++ [dedup_combine t r]
      else (acc ++ [t]) ++ [r] := by
  unfold deduplicate_merge_rpc
  rw [List.getLast?_concat, List.dropLast_concat]

theorem foldl_dedup_run (xs : List NodeResponseBenchRpc) :
    ∀ (acc : List NodeResponseBenchRpc) (t : NodeResponseBenchRpc),
      xs.foldl deduplicate_merge_rpc (acc ++ [t]) = acc ++ dedup_run t xs := by
  induction xs with
  | nil => intro acc t; rfl
  | cons x xs ih =>
    intro acc t
    rw [List.foldl_cons, deduplicate_merge_rpc_concat]
    by_cases h : t.block_number = x.block_number
    · rw [if_pos h, ih, dedup_run, if_pos h]
    · rw [if_neg h, ih, dedup_run, if_neg h]
      simp

theorem apply_merge_rpc_cons (x : NodeResponseBenchRpc)
    (xs : List NodeResponseBenchRpc) :
    apply_merge_rpc (x :: xs) = dedup_run x xs := by
  have h : apply_merge_rpc (x :: xs) = xs.foldl deduplicate_merge_rpc ([] ++ [x]) := rfl
  rw [h, foldl_dedup_run, List.nil_append]

theorem dedup_run_key_le (xs : List NodeResponseBenchRpc) :
    ∀ t : NodeResponseBenchRpc, List.Pairwise le_key (t :: xs) →
      ∀ u ∈ dedup_run t xs, t.block_number ≤ u.block_number := by
  induction xs with
  | nil =>
    intro t _ u hu
    rw [dedup_run, List.mem_singleton] at hu
    exact hu ▸ le_refl _
  | cons x xs ih =>
    intro t hp u hu
    rw [List.pairwise_cons] at hp
    obtain ⟨hle, hp⟩ := hp
    rw [dedup_run] at hu
    by_cases h : t.block_number = x.block_number
    · rw [if_pos h] at hu
      have hp2 : List.Pairwise le_key (dedup_combine t x :: xs) := by
        rw [List.pairwise_cons]
        refine ⟨fun b hb => ?_, (List.pairwise_cons.mp hp).2⟩
        have := (List.pairwise_cons.mp hp).1 b hb
        simpa [le_key, apply_key, dedup_combine, h] using this
      have := ih (dedup_combine t x) hp2 u hu
      simpa [dedup_combine] using this
    · rw [if_neg h, List.mem_cons] at hu
      rcases hu with hu | hu
      · exact hu ▸ le_refl _
      · exact le_trans (hle x (List.mem_cons_self x xs)) (ih x hp u hu)

theorem dedup_run_pairwise_lt (xs : List NodeResponseBenchRpc) :
    ∀ t : NodeResponseBenchRpc, List.Pairwise le_key (t :: xs) →
      List.Pairwise lt_key (dedup_run t xs) := by
  induction xs with
  | nil => intro t _; simp [dedup_run]
  | cons x xs ih =>
    intro t hp
    rw [List.pairwise_cons] at hp
    obtain ⟨hle, hp⟩ := hp
    rw [dedup_run]
    by_cases h : t.block_number = x.block_number
    · rw [if_pos h]
      refine ih (dedup_combine t x) ?_
      rw [List.pairwise_cons]
      refine ⟨fun b hb => ?_, (List.pairwise_cons.mp hp).2⟩
      have := (List.pairwise_cons.mp hp).1 b hb
      simpa [le_key, apply_key, dedup_combine, h] using this
    · rw [if_neg h, List.pairwise_cons]
      have hlt : t.block_number < x.block_number :=
        lt_of_le_of_ne (hle x (List.mem_cons_self x xs)) h
      refine ⟨fun u hu => ?_, ih x hp⟩
      exact lt_of_lt_of_le hlt (dedup_run_key_le xs x hp u hu)

theorem dedup_run_of_pairwise_lt (xs : List NodeResponseBenchRpc) :
    ∀ t : NodeResponseBenchRpc, List.Pairwise lt_key (t :: xs) →
      dedup_run t xs = t :: xs := by
  induction xs with
  | nil => intro t _; rfl
  | cons x xs ih =>
    intro t hp
    rw [List.pairwise_cons] at hp
    obtain ⟨hlt, hp⟩ := hp
    have hne : t.block_number ≠ x.block_number :=
      ne_of_lt (hlt x (List.mem_cons_self x xs))
    rw [dedup_run, if_neg hne, ih x hp]

theorem bench_merge_pairwise_lt (l : List NodeResponseBenchRpc) :
    List.Pairwise lt_key (bench_merge l) := by
  have hs : List.Pairwise le_key (apply_sort l) :=
    List.sorted_insertionSort le_key l
  rw [bench_merge]
  cases hd : apply_sort l with
  | nil => simp [apply_merge_rpc]
  | cons x xs =>
    rw [apply_merge_rpc_cons]
    exact dedup_run_pairwise_lt xs x (hd ▸ hs)

theorem pairwise_lt_of_le_nodup (l : List NodeResponseBenchRpc)
    (hle : List.Pairwise le_key l) (hnd : (l.map apply_key).Nodup) :
    List.Pairwise lt_key l := by
  rw [List.Nodup, List.pairwise_map] at hnd
  exact (hle.and hnd).imp fun h => lt_of_le_of_ne h.1 h.2

theorem apply_sort_eq_of_perm_nodup (l l2 : List NodeResponseBenchRpc)
    (hp : l.Perm l2) (hnd : (l.map apply_key).Nodup) :
    apply_sort l = apply_sort l2 := by
  have p1 : (apply_sort l).Perm l := List.perm_insertionSort le_key l
  have p2 : (apply_sort l2).Perm l2 := List.perm_insertionSort le_key l2
  have p12 : (apply_sort l).Perm (apply_sort l2) :=
    (p1.trans hp).trans p2.symm
  have nd1 : ((apply_sort l).map apply_key).Nodup :=
    ((p1.map apply_key).nodup_iff).mpr hnd
  have nd2 : ((apply_sort l2).map apply_key).Nodup :=
    ((p12.map apply_key).nodup_iff).mp nd1
  exact List.eq_of_perm_of_sorted (r := lt_key) p12
    (pairwise_lt_of_le_nodup _ (List.sorted_insertionSort le_key l) nd1)
    (pairwise_lt_of_le_nodup _ (List.sorted_insertionSort le_key l2) nd2)

/-! ## Claim theorems about the Merger -/

/-- C2: whenever the Merger combines two summaries that collide on the same
block number, the combined entry's `elapsed_avg` is `(avg1 + avg2) // 2`
(integer floor division), its `elapsed_low` is `min(low1, low2)`, and its
`elapsed_high` is `max(high1, high2)`. -/
theorem deduplicate_merge_rpc_collision_combines
    (acc : List NodeResponseBenchRpc) (last resp : NodeResponseBenchRpc)
    (hlast : acc.getLast? = some last)
    (hcol : last.block_number = resp.block_number) :
    ∃ m, (deduplicate_merge_rpc acc resp).getLast? = some m ∧
      m.elapsed_avg = (last.elapsed_avg + resp.elapsed_avg).fdiv 2 ∧
      m.elapsed_low = min last.elapsed_low resp.elapsed_low ∧
      m.elapsed_high = max last.elapsed_high resp.elapsed_high ∧
      m.block_number = last.block_number := by
  refine ⟨dedup_combine last resp, ?_, rfl, rfl, rfl, rfl⟩
  unfold deduplicate_merge_rpc
  rw [hlast]
  dsimp only
  rw [if_pos hcol, List.getLast?_concat]

/-- Witness for C2, on the spec's example: summaries at block 50 with
(avg=100, low=80, high=120) and (avg=200, low=150, high=250) merge to
(avg=150, low=80, high=250). -/
theorem deduplicate_merge_rpc_collision_combines_witness :
    (([⟨0, 0, 50, 100, 80, 120⟩] : List NodeResponseBenchRpc).getLast? =
        some ⟨0, 0, 50, 100, 80, 120⟩ ∧
      (⟨0, 0, 50, 100, 80, 120⟩ : NodeResponseBenchRpc).block_number =
        (⟨0, 0, 50, 200, 150, 250⟩ : NodeResponseBenchRpc).block_number) ∧
    (∃ m, (deduplicate_merge_rpc [⟨0, 0, 50, 100, 80, 120⟩]
        ⟨0, 0, 50, 200, 150, 250⟩).getLast? = some m ∧
      m.elapsed_avg = ((100 : Int) + 200).fdiv 2 ∧
      m.elapsed_low = min (80 : Int) 150 ∧
      m.elapsed_high = max (120 : Int) 250 ∧
      m.block_number = 50) ∧
    deduplicate_merge_rpc [⟨0, 0, 50, 100, 80, 120⟩] ⟨0, 0, 50, 200, 150, 250⟩ =
      [⟨0, 0, 50, 150, 80, 250⟩] :=
  ⟨⟨rfl, rfl⟩,
    deduplicate_merge_rpc_collision_combines [⟨0, 0, 50, 100, 80, 120⟩]
      ⟨0, 0, 50, 100, 80, 120⟩ ⟨0, 0, 50, 200, 150, 250⟩ rfl rfl,
    by decide⟩

/-- C10: when the Merger collapses a colliding summary into the running tail,
only the tail entry's `elapsed_avg`, `elapsed_low` and `elapsed_high` change:
its `node`, `method` and `block_number` keep the earlier entry's values, the
earlier part of the accumulator is untouched, and every field of the later
colliding entry other than the three folded-in latency fields is
discarded. -/
theorem deduplicate_merge_rpc_frame
    (acc : List NodeResponseBenchRpc) (last resp : NodeResponseBenchRpc)
    (hlast : acc.getLast? = some last)
    (hcol : last.block_number = resp.block_number) :
    deduplicate_merge_rpc acc resp =
      acc.dropLast ++
        [{ node := last.node, method := last.method
           block_number := last.block_number
           elapsed_avg := (last.elapsed_avg + resp.elapsed_avg).fdiv 2
           elapsed_low := min last.elapsed_low resp.elapsed_low
           elapsed_high := max last.elapsed_high resp.elapsed_high }] := by
  unfold deduplicate_merge_rpc
  rw [hlast]
  dsimp only
  rw [if_pos hcol]
  rfl

/-- Witness for C10: collapsing `⟨9, 9, 77, 300, 50, 400⟩` into the tail
`⟨3, 4, 77, 100, 90, 110⟩` of a two-entry accumulator keeps the first entry
and the tail's identity fields, and discards the collider's `node`/`method`. -/
theorem deduplicate_merge_rpc_frame_witness :
    (([⟨1, 2, 10, 5, 5, 5⟩, ⟨3, 4, 77, 100, 90, 110⟩] :
        List NodeResponseBenchRpc).getLast? = some ⟨3, 4, 77, 100, 90, 110⟩ ∧
      (⟨3, 4, 77, 100, 90, 110⟩ : NodeResponseBenchRpc).block_number =
        (⟨9, 9, 77, 300, 50, 400⟩ : NodeResponseBenchRpc).block_number) ∧
    deduplicate_merge_rpc [⟨1, 2, 10, 5, 5, 5⟩, ⟨3, 4, 77, 100, 90, 110⟩]
        ⟨9, 9, 77, 300, 50, 400⟩ =
      [⟨1, 2, 10, 5, 5, 5⟩, ⟨3, 4, 77, 100, 90, 110⟩].dropLast ++
        [{ node := 3, method := 4, block_number := 77
           elapsed_avg := ((100 : Int) + 300).fdiv 2
           elapsed_low := min (90 : Int) 50
           elapsed_high := max (110 : Int) 400 }] :=
  ⟨⟨rfl, rfl⟩,
    deduplicate_merge_rpc_frame [⟨1, 2, 10, 5, 5, 5⟩, ⟨3, 4, 77, 100, 90, 110⟩]
      ⟨3, 4, 77, 100, 90, 110⟩ ⟨9, 9, 77, 300, 50, 400⟩ rfl rfl⟩

/-- C7: the Merger is idempotent: `merge(merge(x)) == merge(x)` where merge is
sorting by block number followed by the collision-collapsing left-fold. -/
theorem bench_merge_idempotent (l : List NodeResponseBenchRpc) :
    bench_merge (bench_merge l) = bench_merge l := by
  have hlt := bench_merge_pairwise_lt l
  have hle : List.Pairwise le_key (bench_merge l) :=
    hlt.imp fun h => le_of_lt h
  have hsort : apply_sort (bench_merge l) = bench_merge l :=
    List.Sorted.insertionSort_eq hle
  show apply_merge_rpc (apply_sort (bench_merge l)) = bench_merge l
  rw [hsort]
  cases hd : bench_merge l with
  | nil => rfl
  | cons x xs =>
    rw [apply_merge_rpc_cons, dedup_run_of_pairwise_lt xs x (hd ▸ hlt)]

/-- C8: for every input list, the Merger's output is sorted ascending by
block number and contains at most one entry per block number. -/
theorem bench_merge_sorted_nodup (l : List NodeResponseBenchRpc) :
    List.Sorted le_key (bench_merge l) ∧
      ((bench_merge l).map apply_key).Nodup := by
  have hlt := bench_merge_pairwise_lt l
  constructor
  · exact hlt.imp fun h => le_of_lt h
  · rw [List.Nodup, List.pairwise_map]
    exact hlt.imp fun h => ne_of_lt h

/-- Counterexample to C3 as stated: with three summaries sharing block 50 and
averages 0, 0, 100 (same node and method), the merged average depends on the
order of the input list before sorting, because the stable sort preserves the
order of equal keys and the left-fold average `(a + b) // 2` is not
associative: one order yields average 50, the other 25. -/
theorem bench_merge_perm_dependent_counterexample :
    ([⟨0, 0, 50, 0, 0, 100⟩, ⟨0, 0, 50, 0, 0, 100⟩, ⟨0, 0, 50, 100, 0, 100⟩] :
        List NodeResponseBenchRpc).Perm
      [⟨0, 0, 50, 100, 0, 100⟩, ⟨0, 0, 50, 0, 0, 100⟩, ⟨0, 0, 50, 0, 0, 100⟩] ∧
    bench_merge
        [⟨0, 0, 50, 0, 0, 100⟩, ⟨0, 0, 50, 0, 0, 100⟩, ⟨0, 0, 50, 100, 0, 100⟩] ≠
      bench_merge
        [⟨0, 0, 50, 100, 0, 100⟩, ⟨0, 0, 50, 0, 0, 100⟩, ⟨0, 0, 50, 0, 0, 100⟩] := by
  constructor
  · exact ((List.Perm.swap _ _ _).cons _).trans (List.Perm.swap _ _ _)
  · decide

/-- C3 (amended): the merged output depends only on the multiset of input
summaries provided no two summaries share a block number. -/
theorem bench_merge_perm_invariant_of_nodup_keys
    (l l2 : List NodeResponseBenchRpc) (hp : l.Perm l2)
    (hnd : (l.map apply_key).Nodup) :
    bench_merge l2 = bench_merge l := by
  show apply_merge_rpc (apply_sort l2) = apply_merge_rpc (apply_sort l)
  rw [apply_sort_eq_of_perm_nodup l l2 hp hnd]

/-- Witness for the amended C3: two summaries at distinct blocks 50 and 60
merge to the same output in either input order. -/
theorem bench_merge_perm_invariant_of_nodup_keys_witness :
    (([⟨0, 0, 50, 1, 1, 1⟩, ⟨0, 0, 60, 2, 2, 2⟩] :
        List NodeResponseBenchRpc).Perm
        [⟨0, 0, 60, 2, 2, 2⟩, ⟨0, 0, 50, 1, 1, 1⟩] ∧
      (([⟨0, 0, 50, 1, 1, 1⟩, ⟨0, 0, 60, 2, 2, 2⟩] :
        List NodeResponseBenchRpc).map apply_key).Nodup) ∧
    bench_merge [⟨0, 0, 60, 2, 2, 2⟩, ⟨0, 0, 50, 1, 1, 1⟩] =
      bench_merge [⟨0, 0, 50, 1, 1, 1⟩, ⟨0, 0, 60, 2, 2, 2⟩] :=
  ⟨⟨List.Perm.swap _ _ _, by decide⟩,
    bench_merge_perm_invariant_of_nodup_keys _ _ (List.Perm.swap _ _ _)
      (by decide)⟩

/-! ## Helper lemmas about list aggregates -/

theorem foldl_min_le (xs : List Int) :
    ∀ a : Int, xs.foldl min a ≤ a ∧ ∀ y ∈ xs, xs.foldl min a ≤ y := by
  induction xs with
  | nil => intro a; exact ⟨le_refl a, by simp⟩
  | cons x xs ih =>
    intro a
    rw [List.foldl_cons]
    refine ⟨le_trans (ih (min a x)).1 (min_le_left a x), ?_⟩
    intro y hy
    rw [List.mem_cons] at hy
    rcases hy with rfl | hy
    · exact le_trans (ih (min a y)).1 (min_le_right a y)
    · exact (ih (min a x)).2 y hy

theorem le_foldl_max (xs : List Int) :
    ∀ a : Int, a ≤ xs.foldl max a ∧ ∀ y ∈ xs, y ≤ xs.foldl max a := by
  induction xs with
  | nil => intro a; exact ⟨le_refl a, by simp⟩
  | cons x xs ih =>
    intro a
    rw [List.foldl_cons]
    refine ⟨le_trans (le_max_left a x) (ih (max a x)).1, ?_⟩
    intro y hy
    rw [List.mem_cons] at hy
    rcases hy with rfl | hy
    · exact le_trans (le_max_right a y) (ih (max a y)).1
    · exact (ih (max a x)).2 y hy

theorem elapsed_low_of_le (xs : List Int) :
    ∀ y ∈ xs, elapsed_low_of xs ≤ y := by
  cases xs with
  | nil => simp
  | cons x r =>
    intro y hy
    rw [List.mem_cons] at hy
    rcases hy with rfl | hy
    · exact (foldl_min_le r y).1
    · exact (foldl_min_le r x).2 y hy

theorem le_elapsed_high_of (xs : List Int) :
    ∀ y ∈ xs, y ≤ elapsed_high_of xs := by
  cases xs with
  | nil => simp
  | cons x r =>
    intro y hy
    rw [List.mem_cons] at hy
    rcases hy with rfl | hy
    · exact (le_foldl_max r y).1
    · exact (le_foldl_max r x).2 y hy

theorem mul_length_le_sum (xs : List Int) (lo : Int)
    (h : ∀ y ∈ xs, lo ≤ y) : lo * xs.length ≤ xs.sum := by
  induction xs with
  | nil => simp
  | cons x r ih =>
    rw [List.sum_cons, List.length_cons]
    have h1 : lo ≤ x := h x (List.mem_cons_self x r)
    have h2 : lo * r.length ≤ r.sum := ih fun y hy => h y (List.mem_cons_of_mem x hy)
    push_cast
    nlinarith

theorem sum_le_mul_length (xs : List Int) (hi : Int)
    (h : ∀ y ∈ xs, y ≤ hi) : xs.sum ≤ hi * xs.length := by
  induction xs with
  | nil => simp
  | cons x r ih =>
    rw [List.sum_cons, List.length_cons]
    have h1 : x ≤ hi := h x (List.mem_cons_self x r)
    have h2 : r.sum ≤ hi * r.length := ih fun y hy => h y (List.mem_cons_of_mem x hy)
    push_cast
    nlinarith

/-! ## Claim theorems about the Aggregator -/

/-- C1: for every non-empty list of per-sample elapsed times, the reduced
summary satisfies `elapsed_low <= elapsed_avg <= elapsed_high`, and
`elapsed_avg` equals the integer floor of the arithmetic mean of the
samples (`sum(elapsed) // count`). -/
theorem benchmark_rpc_reduce_correct (elapsed : List Int) (h : elapsed ≠ []) :
    elapsed_low_of elapsed ≤ benchmark_rpc_elapsed_avg elapsed ∧
    benchmark_rpc_elapsed_avg elapsed ≤ elapsed_high_of elapsed ∧
    benchmark_rpc_elapsed_avg elapsed =
      ⌊(elapsed.sum : ℚ) / (elapsed.length : ℚ)⌋ := by
  have hn : 0 < elapsed.length := List.length_pos.mpr h
  have hnz : (0 : Int) < (elapsed.length : Int) := by exact_mod_cast hn
  have havg : benchmark_rpc_elapsed_avg elapsed =
      elapsed.sum / (elapsed.length : Int) := by
    rw [benchmark_rpc_elapsed_avg, Int.fdiv_eq_ediv _ (le_of_lt hnz)]
  refine ⟨?_, ?_, ?_⟩
  · rw [havg, Int.le_ediv_iff_mul_le hnz]
    exact mul_length_le_sum elapsed _ (elapsed_low_of_le elapsed)
  · rw [havg]
    have hs : elapsed.sum ≤ elapsed_high_of elapsed * elapsed.length :=
      sum_le_mul_length elapsed _ (le_elapsed_high_of elapsed)
    calc elapsed.sum / (elapsed.length : Int)
        ≤ elapsed_high_of elapsed * elapsed.length / (elapsed.length : Int) :=
          Int.ediv_le_ediv hnz hs
      _ = elapsed_high_of elapsed := Int.mul_ediv_cancel _ (ne_of_gt hnz)
  · rw [havg]
    symm
    rw [Int.floor_eq_iff]
    have hq : (0 : ℚ) < (elapsed.length : ℚ) := by exact_mod_cast hn
    constructor
    · rw [le_div_iff₀ hq]
      have := Int.ediv_mul_le elapsed.sum (ne_of_gt hnz)
      exact_mod_cast this
    · rw [div_lt_iff₀ hq]
      have := Int.lt_ediv_add_one_mul_self elapsed.sum hnz
      exact_mod_cast this

/-- Witness for C1, on the spec's example: samples `[100, 200, 300]`
nanoseconds give avg 200, low 100, high 300. -/
theorem benchmark_rpc_reduce_correct_witness :
    (([100, 200, 300] : List Int) ≠ []) ∧
    (elapsed_low_of [100, 200, 300] ≤ benchmark_rpc_elapsed_avg [100, 200, 300] ∧
      benchmark_rpc_elapsed_avg [100, 200, 300] ≤ elapsed_high_of [100, 200, 300] ∧
      benchmark_rpc_elapsed_avg [100, 200, 300] =
        ⌊(([100, 200, 300] : List Int).sum : ℚ) /
          (([100, 200, 300] : List Int).length : ℚ)⌋) ∧
    benchmark_rpc_elapsed_avg [100, 200, 300] = 200 ∧
    elapsed_low_of [100, 200, 300] = 100 ∧
    elapsed_high_of [100, 200, 300] = 300 :=
  ⟨by decide, benchmark_rpc_reduce_correct [100, 200, 300] (by decide),
    by decide, by decide, by decide⟩

/-- C4: contrary to the claim, `benchmark_system` averages every metric with
true division, the integer metrics included: the branch test
`value[0][0] is int` compares a sample value against the type object `int`
and is therefore always false, so the floor-division branch is unreachable.
At the failing input of one node with integer memory samples `[1, 2]` bytes,
the code produces the float `3/2` where the claim requires the floor-divided
int `1` (which is what the unreachable branch would compute). -/
theorem benchmark_system_int_avg_uses_true_division :
    benchmark_system_value_avg [[PyNum.int 1, PyNum.int 2]] =
        [PyNum.float (3 / 2)] ∧
    PyNum.float (3 / 2) ≠ PyNum.int 1 ∧
    pyFloorDiv (pySum [PyNum.int 1, PyNum.int 2]) 2 = PyNum.int 1 := by
  refine ⟨?_, by simp, by decide⟩
  show (if py_value_is_the_type_int (headSample [[PyNum.int 1, PyNum.int 2]])
      then _ else _) = _
  rw [py_value_is_the_type_int, if_neg (by decide)]
  show [pyTrueDiv (pySum [PyNum.int 1, PyNum.int 2]) 2] = [PyNum.float (3 / 2)]
  have hsum : pySum [PyNum.int 1, PyNum.int 2] = PyNum.int 3 := by decide
  rw [hsum, pyTrueDiv, PyNum.toRat]
  norm_num

/-! ## Helper lemmas about the backward scan -/

theorem backwardScan_some (pred : Int → Bool) (block_min : Int) :
    ∀ (b r : Int), block_min ≤ b →
      backwardScan pred block_min b = some r →
      block_min ≤ r ∧ pred r = true := by
  have H : ∀ (n : Nat) (b r : Int), (b - block_min).toNat ≤ n →
      block_min ≤ b → backwardScan pred block_min b = some r →
      block_min ≤ r ∧ pred r = true := by
    intro n
    induction n with
    | zero =>
      intro b r hle hb h
      rw [backwardScan] at h
      by_cases hp : pred b
      · rw [if_pos hp] at h
        cases h
        exact ⟨hb, hp⟩
      · rw [if_neg hp, if_pos (by omega)] at h
        cases h
    | succ n ih =>
      intro b r hle hb h
      rw [backwardScan] at h
      by_cases hp : pred b
      · rw [if_pos hp] at h
        cases h
        exact ⟨hb, hp⟩
      · rw [if_neg hp] at h
        by_cases hf : b - 1 < block_min
        · rw [if_pos hf] at h
          cases h
        · rw [if_neg hf] at h
          exact ih (b - 1) r (by omega) (by omega) h
  intro b r hb h
  exact H (b - block_min).toNat b r (le_refl _) hb h

theorem backwardScan_none (pred : Int → Bool) (block_min : Int) :
    ∀ b : Int, block_min ≤ b →
      (∀ x, block_min ≤ x → x ≤ b → pred x = false) →
      backwardScan pred block_min b = none := by
  have H : ∀ (n : Nat) (b : Int), (b - block_min).toNat ≤ n →
      block_min ≤ b → (∀ x, block_min ≤ x → x ≤ b → pred x = false) →
      backwardScan pred block_min b = none := by
    intro n
    induction n with
    | zero =>
      intro b hle hb hall
      rw [backwardScan, if_neg (by simp [hall b hb (le_refl b)]),
        if_pos (by omega)]
    | succ n ih =>
      intro b hle hb hall
      rw [backwardScan, if_neg (by simp [hall b hb (le_refl b)])]
      by_cases hf : b - 1 < block_min
      · rw [if_pos hf]
      · rw [if_neg hf]
        exact ih (b - 1) (by omega) (by omega)
          fun x hx hxb => hall x hx (by omega)
  intro b hb hall
  exact H (b - block_min).toNat b (le_refl _) hb hall

/-! ## Claim theorems about the input generators -/

/-- Counterexample to C5 as stated: `gen_starknet_estimateFee` yields the
predecessor of the block found by the backward scan.  With common height 2010
(window floor `max(0, 2010 - 2000) = 10`), a scan start of 10 (a legal
`randrange(block_min, block_number)` outcome) and a predicate satisfied
exactly at block 10, the generator yields block 9, strictly below the floor
of the lookback window. -/
theorem gen_estimateFee_below_floor_counterexample :
    gen_starknet_estimateFee_block (fun b => b == 10) 2010 10 = some 9 ∧
    (9 : Int) < max 0 (2010 - GENERATE_RANGE) ∧
    max 0 (2010 - GENERATE_RANGE) ≤ (10 : Int) := by
  refine ⟨?_, by decide, by decide⟩
  rw [gen_starknet_estimateFee_block, backwardScan]
  norm_num

/-- C5 (amended): every input yielded by the backward-scanning generator of
`starknet_getStorageAt` has block number at least
`max(0, common_height - GENERATE_RANGE)` and satisfies the generator's
predicate; the fee-estimation generator yields the predecessor of the
satisfying block, hence at least `max(0, common_height - GENERATE_RANGE) - 1`
— one below the window floor in the worst case.  For both, if no block in the
window at or below the scan start satisfies the predicate, the generator
raises `NoInputFound` (returns no input). -/
theorem generator_backward_scan_floor (pred : Int → Bool)
    (common_height start : Int)
    (hstart : max 0 (common_height - GENERATE_RANGE) ≤ start) :
    (∀ r, gen_starknet_getStorageAt_block pred common_height start = some r →
      max 0 (common_height - GENERATE_RANGE) ≤ r ∧ pred r = true) ∧
    (∀ r, gen_starknet_estimateFee_block pred common_height start = some r →
      max 0 (common_height - GENERATE_RANGE) - 1 ≤ r ∧ pred (r + 1) = true) ∧
    ((∀ x, max 0 (common_height - GENERATE_RANGE) ≤ x → x ≤ start →
        pred x = false) →
      gen_starknet_getStorageAt_block pred common_height start = none ∧
      gen_starknet_estimateFee_block pred common_height start = none) := by
  have hmax : max (common_height - GENERATE_RANGE) 0 =
      max 0 (common_height - GENERATE_RANGE) := max_comm _ _
  refine ⟨?_, ?_, ?_⟩
  · intro r h
    rw [gen_starknet_getStorageAt_block, hmax] at h
    exact backwardScan_some pred _ start r hstart h
  · intro r h
    rw [gen_starknet_estimateFee_block] at h
    rcases Option.map_eq_some'.mp h with ⟨b, hb, rfl⟩
    have := backwardScan_some pred _ start b hstart hb
    refine ⟨by omega, ?_⟩
    have hb1 : b - 1 + 1 = b := by omega
    rw [hb1]
    exact this.2
  · intro hall
    constructor
    · rw [gen_starknet_getStorageAt_block, hmax]
      exact backwardScan_none pred _ start hstart hall
    · rw [gen_starknet_estimateFee_block,
        backwardScan_none pred _ start hstart hall]
      rfl

/-- Witness for the amended C5: with common height 2010 (floor 10), scan start
15 and a predicate satisfied exactly at block 12, the storage generator yields
12 and the fee generator yields 11, both within the amended bounds. -/
theorem generator_backward_scan_floor_witness :
    (max 0 (2010 - GENERATE_RANGE) ≤ (15 : Int)) ∧
    ((∀ r, gen_starknet_getStorageAt_block (fun b => b == 12) 2010 15 = some r →
        max 0 (2010 - GENERATE_RANGE) ≤ r ∧ (r == (12 : Int)) = true) ∧
      (∀ r, gen_starknet_estimateFee_block (fun b => b == 12) 2010 15 = some r →
        max 0 (2010 - GENERATE_RANGE) - 1 ≤ r ∧ (r + 1 == (12 : Int)) = true) ∧
      ((∀ x, max 0 (2010 - GENERATE_RANGE) ≤ x → x ≤ (15 : Int) →
          (x == (12 : Int)) = false) →
        gen_starknet_getStorageAt_block (fun b => b == 12) 2010 15 = none ∧
        gen_starknet_estimateFee_block (fun b => b == 12) 2010 15 = none)) :=
  ⟨by decide,
    generator_backward_scan_floor (fun b => b == 12) 2010 15 (by decide)⟩

/-! ## Helper lemmas about fan-in of scheduled calls -/

theorem except_gather_all_ok {ε α : Type} (l : List (Except ε α))
    (h : ∀ x ∈ l, ∃ v, x = .ok v) : ∃ vs, except_gather l = .ok vs := by
  induction l with
  | nil => exact ⟨[], rfl⟩
  | cons x rest ih =>
    obtain ⟨v, rfl⟩ := h x (List.mem_cons_self x rest)
    obtain ⟨vs, hvs⟩ := ih fun y hy => h y (List.mem_cons_of_mem _ hy)
    exact ⟨v :: vs, by rw [except_gather, hvs]; rfl⟩

theorem except_gather_error_at {ε α : Type} :
    ∀ (l : List (Except ε α)) (k : Nat) (e : ε),
      l[k]? = some (.error e) →
      (∀ j, j < k → ∃ v, l[j]? = some (.ok v)) →
      except_gather l = .error e := by
  intro l
  induction l with
  | nil => intro k e hk _; simp at hk
  | cons x rest ih =>
    intro k e hk hpre
    cases k with
    | zero =>
      rw [List.getElem?_cons_zero, Option.some_inj] at hk
      rw [hk]
      rfl
    | succ k =>
      obtain ⟨v, hv⟩ := hpre 0 (Nat.succ_pos k)
      rw [List.getElem?_cons_zero, Option.some_inj] at hv
      rw [List.getElem?_cons_succ] at hk
      have hrest : except_gather rest = .error e :=
        ih k e hk fun j hj => by
          have := hpre (j + 1) (by omega)
          rwa [List.getElem?_cons_succ] at this
      rw [hv, except_gather, hrest]
      rfl

/-! ## Claim theorems about error propagation -/

/-- C6: if the transport call of a single sample of one target's batch fails
with a call error, the whole benchmark run raises exactly that error, and
`db_bench_method` persists nothing for that cycle: no partial aggregation of
the remaining samples reaches the database. -/
theorem benchmark_rpc_error_propagation
    (calls : List (Nat → Except BenchError Int)) (samples t i : Nat)
    (call_t : Nat → Except BenchError Int) (e : BenchError)
    (ht : calls[t]? = some call_t) (hi : i < samples)
    (herr : call_t i = .error e)
    (hok : ∀ u callu j, calls[u]? = some callu → j < samples →
      ¬(u = t ∧ j = i) → ∃ v, callu j = .ok v) :
    benchmark_rpc_run calls samples = .error e ∧
    ∀ db, db_bench_method db (benchmark_rpc_run calls samples) = db := by
  have houter : except_gather (calls.map fun call =>
      except_gather ((List.range samples).map call)) = .error e := by
    apply except_gather_error_at _ t e
    · rw [List.getElem?_map, ht]
      have hinner : except_gather ((List.range samples).map call_t) =
          .error e := by
        apply except_gather_error_at _ i e
        · rw [List.getElem?_map, List.getElem?_range hi, Option.map_some',
            herr]
        · intro j hj
          obtain ⟨v, hv⟩ := hok t call_t j ht (by omega) (by omega)
          exact ⟨v, by rw [List.getElem?_map, List.getElem?_range (by omega),
            Option.map_some', hv]⟩
      rw [Option.map_some', hinner]
    · intro u hu
      cases hcu : calls[u]? with
      | none =>
        exfalso
        rw [List.getElem?_eq_none_iff] at hcu
        have : t < calls.length := (List.getElem?_eq_some.mp ht).1
        omega
      | some callu =>
        have hall : ∀ x ∈ (List.range samples).map callu, ∃ v, x = .ok v := by
          intro x hx
          rw [List.mem_map] at hx
          obtain ⟨j, hj, rfl⟩ := hx
          rw [List.mem_range] at hj
          exact hok u callu j hcu hj (by omega)
        obtain ⟨vs, hvs⟩ := except_gather_all_ok _ hall
        exact ⟨vs, by rw [List.getElem?_map, hcu, Option.map_some', hvs]⟩
  constructor
  · rw [benchmark_rpc_run, houter]
    rfl
  · intro db
    rw [benchmark_rpc_run, houter]
    rfl

/-- Witness for C6, on the spec's scenario: one target, three samples, the
transport raising a call error on sample 2 (index 1); the run raises that
error and the database is left unchanged. -/
theorem benchmark_rpc_error_propagation_witness :
    ([fun j => if j = 1 then Except.error (BenchError.errorRpcCall 0 0)
        else Except.ok (10 : Int)] :
        List (Nat → Except BenchError Int))[0]? =
      some (fun j => if j = 1 then .error (.errorRpcCall 0 0)
        else .ok (10 : Int)) ∧
    (1 : Nat) < 3 ∧
    (benchmark_rpc_run
        [fun j => if j = 1 then .error (.errorRpcCall 0 0) else .ok (10 : Int)]
        3 = .error (.errorRpcCall 0 0) ∧
      ∀ db, db_bench_method db (benchmark_rpc_run
        [fun j => if j = 1 then .error (.errorRpcCall 0 0) else .ok (10 : Int)]
        3) = db) := by
  refine ⟨rfl, by decide, ?_⟩
  apply benchmark_rpc_error_propagation _ 3 0 1 _ _ rfl (by decide) rfl
  intro u callu j hu hj hne
  cases u with
  | zero =>
    rw [List.getElem?_cons_zero, Option.some_inj] at hu
    have hj1 : j ≠ 1 := fun hj1 => hne ⟨rfl, hj1⟩
    refine ⟨10, ?_⟩
    rw [← hu]
    simp [hj1]
  | succ u => simp at hu

/-! ## Claim theorems about the Scheduler -/

/-- C9: a run over the targets `urls` with `inputs` drawn once creates exactly
one scheduled call per (target, input) pair — `len(urls) * len(inputs)` calls
in total, the same inputs reused for every target — and for each target the
call of the i-th sample carries the delay `i * interval` milliseconds, i.e.
`i * (interval * TO_MILLIS)` seconds. -/
theorem benchmark_rpc_schedule_fanout {ν υ ι : Type} (urls : List (ν × υ))
    (interval : ℚ) (inputs : List ι) :
    (futures_bench urls interval inputs).length = urls.length ∧
    ((futures_bench urls interval inputs).map List.length).sum =
      urls.length * inputs.length ∧
    ∀ (t : Nat) (nu : ν × υ) (i : Nat) (inp : ι),
      urls[t]? = some nu → inputs[i]? = some inp →
      ∃ row, (futures_bench urls interval inputs)[t]? = some row ∧
        row[i]? = some { node := nu.1, url := nu.2, input := inp,
                         delay := (i : ℚ) * (interval * TO_MILLIS) } ∧
        (i : ℚ) * (interval * TO_MILLIS) * 1000 = (i : ℚ) * interval := by
  refine ⟨by rw [futures_bench, List.length_map], ?_, ?_⟩
  · rw [futures_bench, List.map_map]
    have hconst : (List.length ∘ fun nu : ν × υ =>
        inputs.enum.map fun p => ({ node := nu.1, url := nu.2, input := p.2,
                                    delay := (p.1 : ℚ) * (interval * TO_MILLIS) } :
          ScheduledCall ν υ ι))
        = fun _ => inputs.length := by
      funext nu
      simp [List.enum_length]
    rw [hconst, List.map_const', List.sum_replicate, smul_eq_mul]
  · intro t nu i inp ht hinp
    refine ⟨inputs.enum.map fun p => { node := nu.1, url := nu.2, input := p.2,
                                       delay := (p.1 : ℚ) * (interval * TO_MILLIS) },
      ?_, ?_, ?_⟩
    · rw [futures_bench, List.getElem?_map, ht, Option.map_some']
    · rw [List.getElem?_map, List.getElem?_enum, hinp, Option.map_some',
        Option.map_some']
    · rw [TO_MILLIS]
      ring

/-- Witness for C9, on the spec's example: `samples = 3`, `interval_ms = 100`
and 2 targets produce 6 scheduled calls whose per-target delays are 0, 100 and
200 milliseconds (0, 1/10 and 2/10 seconds). -/
theorem benchmark_rpc_schedule_fanout_witness :
    ((futures_bench [((0 : Nat), (0 : Nat)), (1, 1)] 100
        [(10 : Nat), 20, 30]).length = 2 ∧
      ((futures_bench [((0 : Nat), (0 : Nat)), (1, 1)] 100
        [(10 : Nat), 20, 30]).map List.length).sum = 2 * 3 ∧
      (∀ (t : Nat) (nu : Nat × Nat) (i : Nat) (inp : Nat),
        ([((0 : Nat), (0 : Nat)), (1, 1)] : List (Nat × Nat))[t]? = some nu →
        ([(10 : Nat), 20, 30])[i]? = some inp →
        ∃ row, (futures_bench [((0 : Nat), (0 : Nat)), (1, 1)] 100
            [(10 : Nat), 20, 30])[t]? = some row ∧
          row[i]? = some { node := nu.1, url := nu.2, input := inp,
                           delay := (i : ℚ) * (100 * TO_MILLIS) } ∧
          (i : ℚ) * (100 * TO_MILLIS) * 1000 = (i : ℚ) * 100)) ∧
    ((futures_bench [((0 : Nat), (0 : Nat)), (1, 1)] 100
        [(10 : Nat), 20, 30]).map (List.map ScheduledCall.delay)) =
      [[0, 1 / 10, 2 / 10], [0, 1 / 10, 2 / 10]] := by
  constructor
  · have h := benchmark_rpc_schedule_fanout [((0 : Nat), (0 : Nat)), (1, 1)]
      100 [(10 : Nat), 20, 30]
    exact ⟨by rw [h.1]; rfl, by rw [h.2.1]; rfl, h.2.2⟩

  · show List.map (List.map ScheduledCall.delay)
      (List.map _ [((0 : Nat), (0 : Nat)), (1, 1)]) = _
    rw [TO_MILLIS]
    norm_num [futures_bench, List.enum, List.enumFrom, TO_MILLIS]
